import Mathlib

/-!
# Prefix resolution and prefix-length computation of `backend/generic.go`

A shallow embedding of `Find`, `FindSnapshot`, `PrefixLength` and the bounded
stream `blobReader`, and the properties of their results.

Modelling conventions.

* A Go `string` is a finite sequence of bytes, `GoString = List (Fin 256)`;
  `len(s)` is `List.length` and `s == t` is equality of the byte sequences.
* The slice expression `s[:n]` panics at run time when `n > len(s)`; it is
  `sliceTo s n : Option GoString`, with `none` for the panic.
* A call that returns `(v, err)` is `Outcome.ret v err`, with `err = none` for
  Go's `nil`; a call that ends in a run-time panic is `Outcome.panic`.
* `be.List(t, done)` hands back a channel; `for name := range ...` receives the
  names sent on it, in order, until it is closed. A `Lister` is modelled by the
  finite sequence of names each type's channel delivers.
* `IDSize` is a constant declared outside `generic.go`; the functions that use
  it take it as their first argument. So does `FindSnapshot` with the constant
  `Snapshot`.
* The resource under a `blobReader` is a state machine `ReadCloser σ`: `Read`
  and `Close` take the state of the resource and return the next state with
  what the call returns. A buffer `p` is modelled by its length and a read by
  the count and error it returns; the bytes themselves are not modelled.
* A `blobReader` is the state of the struct behind the pointer; methods return
  the new state with their results. Its field `closeCalls` is a counter of the
  calls `l.f.Close()`, added to state how often the resource is released.
-/

namespace Backend

/-- A Go string: a finite sequence of bytes. -/
abbrev GoString := List (Fin 256)

/-- The constant `MinPrefixLength` of `generic.go`. -/
def MinPrefixLength : Nat := 8

/-- The constant `hashSize = sha256.Size` of `generic.go`: 32 bytes. -/
def hashSize : Nat := 32

/-- The two error values declared in `generic.go`. -/
inductive Error where
  | ErrNoIDPrefixFound
  | ErrMultipleIDMatches
  deriving DecidableEq, Repr

/-- Result of a Go call with signature `(α, error)`: the returned pair, or a
run-time panic. -/
inductive Outcome (α : Type) where
  | ret (val : α) (err : Option Error)
  | panic
  deriving DecidableEq, Repr

/-- Go's `s[:n]`: the first `n` bytes, and a run-time panic (`none`) when
`n > len(s)`. -/
def sliceTo (s : GoString) (n : Nat) : Option GoString :=
  if n ≤ s.length then some (s.take n) else none

/-- The interface `Lister`, over the type `τ` of blob types: `List t` is the
sequence of names received from the channel `be.List(t, done)`. -/
structure Lister (τ : Type) where
  List : τ → List GoString

/-- The `for name := range be.List(t, done)` loop of `Find` followed by the
code after it; `found` is the local variable `match`. -/
def Find.scan (pfx : GoString) : GoString → List GoString → Outcome GoString
  | found, [] =>
    if found ≠ [] then .ret found none else .ret [] (some .ErrNoIDPrefixFound)
  | found, name :: rest =>
    match sliceTo name pfx.length with
    | none => .panic
    | some head =>
      if pfx = head then
        if found = [] then Find.scan pfx name rest
        else .ret [] (some .ErrMultipleIDMatches)
      else Find.scan pfx found rest

/-- `Find(be, t, prefix)`. -/
def Find {τ : Type} (be : Lister τ) (t : τ) (pfx : GoString) : Outcome GoString :=
  Find.scan pfx [] (be.List t)

/-- The inner loop `for _, name := range list` of `PrefixLength` at length `l`,
started with the local variable `last`: `some true` when `continue outer` is
taken, `some false` when the loop runs to its end, `none` when `name[:l]`
panics. -/
def PrefixLength.inner (l : Nat) : GoString → List GoString → Option Bool
  | _, [] => some false
  | last, name :: rest =>
    match sliceTo name l with
    | none => none
    | some head => if last = head then some true else PrefixLength.inner l head rest

/-- The loop `outer` of `PrefixLength` over the remaining values of `l`, and
the `return IDSize, nil` behind it. -/
def PrefixLength.outer (IDSize : Nat) (list : List GoString) : List Nat → Outcome Nat
  | [] => .ret IDSize none
  | l :: ls =>
    match PrefixLength.inner l [] list with
    | none => .panic
    | some true => PrefixLength.outer IDSize list ls
    | some false => .ret l none

/-- `PrefixLength(be, t)`: `list` collects the names of the channel in the order
received; `l` runs through `MinPrefixLength, ..., IDSize - 1`. -/
def PrefixLength {τ : Type} (IDSize : Nat) (be : Lister τ) (t : τ) : Outcome Nat :=
  PrefixLength.outer IDSize (be.List t)
    (List.range' MinPrefixLength (IDSize - MinPrefixLength))

/-- No two consecutive names of `list` have the same first `l` bytes. -/
def NoAdjacentCollision (l : Nat) (list : List GoString) : Prop :=
  List.Chain' (fun a b => a.take l ≠ b.take l) list

instance (l : Nat) (list : List GoString) : Decidable (NoAdjacentCollision l list) := by
  unfold NoAdjacentCollision; infer_instance

/-- A name of `n` bytes: the bytes of `head` followed by the byte `c` repeated
up to length `n`. -/
def padded (n : Nat) (head : GoString) (c : Fin 256) : GoString :=
  head ++ List.replicate (n - head.length) c

/-- A lister that delivers the same listing for every type. -/
def constLister (names : List GoString) : Lister Unit := ⟨fun _ => names⟩

/-- The four bytes `abcd`. -/
def pfxAbcd : GoString := [97, 98, 99, 100]

/-- The 64-byte name `abcd1111...1`. -/
def nameAbcd1 : GoString := padded 64 [97, 98, 99, 100] 49

/-- The 64-byte name `abcd5555...5`. -/
def nameAbcd5 : GoString := padded 64 [97, 98, 99, 100] 53

/-- The 64-byte name `ef000000...0`. -/
def nameEf0 : GoString := padded 64 [101, 102] 48

/-- The 64-byte name `aaaaaaaa1111...1`. -/
def nameA1 : GoString := padded 64 [97, 97, 97, 97, 97, 97, 97, 97] 49

/-- The 64-byte name `aaaaaaaa2222...2`. -/
def nameA2 : GoString := padded 64 [97, 97, 97, 97, 97, 97, 97, 97] 50

/-- The 64-byte name `bbbbbbbb...b`. -/
def nameB : GoString := padded 64 [] 98

/-- The verdict of `Find` as a function of the sub-listing of matching entries:
none, exactly one, or at least two. -/
def Find.verdict : List GoString → Outcome GoString
  | [] => .ret [] (some .ErrNoIDPrefixFound)
  | [x] => .ret x none
  | _ :: _ :: _ => .ret [] (some .ErrMultipleIDMatches)

/-- `FindSnapshot(be, s)`; the constant `Snapshot` of type `Type` is declared
outside `generic.go` and is the first argument. -/
def FindSnapshot {τ : Type} (Snapshot : τ) (be : Lister τ) (s : GoString) :
    Outcome GoString :=
  match Find be Snapshot s with
  | .panic => .panic
  | .ret _ (some err) => .ret [] (some err)
  | .ret name none => .ret name none

/-- Length of the longest common prefix of two names. -/
def lcpLength : GoString → GoString → Nat
  | x :: xs, y :: ys => if x = y then lcpLength xs ys + 1 else 0
  | _, _ => 0

/-- The maximum, over the pairs of consecutive names of the listing, of the
length of their longest common prefix; `0` for fewer than two names. -/
def maxAdjacentLcp : List GoString → Nat
  | a :: b :: rest => max (lcpLength a b) (maxAdjacentLcp (b :: rest))
  | _ => 0

/-- Go's `a <= b` on strings: the lexicographic order of the byte sequences. -/
def stringLE : GoString → GoString → Bool
  | [], _ => true
  | _ :: _, [] => false
  | x :: xs, y :: ys => decide (x < y) || (decide (x = y) && stringLE xs ys)

/-- The listing is in ascending lexicographic order: each name is `<=` the
next one. -/
def Ascending (list : List GoString) : Prop :=
  List.Chain' (fun a b => stringLE a b = true) list

/-! ### The bounded stream -/

/-- Error values seen by the bounded stream: `io.EOF`, and any other error,
told apart by a code. -/
inductive StreamError where
  | EOF
  | other (code : Nat)
  deriving DecidableEq, Repr

/-- An `io.ReadCloser` whose state is a value of `σ`. `Read s k` is the call
`Read(p)` with `len(p) = k` in state `s`: the next state, the returned count
and the returned error. `Close s` is the call `Close()`. -/
structure ReadCloser (σ : Type) where
  Read : σ → Nat → σ × Int × Option StreamError
  Close : σ → σ × Option StreamError

/-- The `io.LimitedReader` held in the field `rd`: its counter `N`. Its reader
`R` is the resource `f` of the enclosing `blobReader`. -/
structure LimitedReader where
  N : Int
  deriving DecidableEq, Repr

/-- The length `io.LimitedReader.Read` passes on to the underlying reader for
a buffer of `len` bytes; `none` when it answers without asking. -/
def LimitedReader.request (l : LimitedReader) (len : Nat) : Option Nat :=
  if l.N ≤ 0 then none
  else some (if (len : Int) > l.N then l.N.toNat else len)

/-- Modelled from the spec: `io.LimitReader` and `io.LimitedReader.Read` belong
to Go's standard library and are not among the repository's files. The read is
bounded to the remaining limit and signals end-of-data once the limit is used
up: `if l.N <= 0 { return 0, EOF }`, `if int64(len(p)) > l.N { p = p[0:l.N] }`,
`n, err = l.R.Read(p)`, `l.N -= int64(n)`. `R` is the state of the underlying
reader. -/
def LimitedReader.Read {σ : Type} (rc : ReadCloser σ) (R : σ) (l : LimitedReader)
    (len : Nat) : (σ × LimitedReader) × (Int × Option StreamError) :=
  match l.request len with
  | none => ((R, l), (0, some .EOF))
  | some k => (((rc.Read R k).1, ⟨l.N - (rc.Read R k).2.1⟩), (rc.Read R k).2)

/-- The struct `blobReader`: `f` is the state of the underlying resource (which
`rd` reads from), `rd` the limited reader, `closed` the flag. The field
`closeCalls` is not in the source: it counts the calls `l.f.Close()` made so
far. -/
structure blobReader (σ : Type) where
  f : σ
  rd : LimitedReader
  closed : Bool
  closeCalls : Nat

/-- `(*blobReader).Close` on a non-nil receiver: the new state and the returned
error. -/
def blobReader.Close {σ : Type} (rc : ReadCloser σ) (l : blobReader σ) :
    blobReader σ × Option StreamError :=
  if !l.closed then
    ({ l with f := (rc.Close l.f).1, closed := true, closeCalls := l.closeCalls + 1 },
      (rc.Close l.f).2)
  else (l, none)

/-- `(*blobReader).Close` on a receiver that may be nil (`none`): the test
`l == nil` returns `nil` at once. -/
def blobReader.CloseNilable {σ : Type} (rc : ReadCloser σ) :
    Option (blobReader σ) → Option (blobReader σ) × Option StreamError
  | none => (none, none)
  | some l => (some (blobReader.Close rc l).1, (blobReader.Close rc l).2)

/-- `(*blobReader).Read(p)` with `len(p) = len`: the new state and the returned
`(n, err)`. The value returned by `l.Close()` is dropped, as in the source. -/
def blobReader.Read {σ : Type} (rc : ReadCloser σ) (l : blobReader σ) (len : Nat) :
    blobReader σ × (Int × Option StreamError) :=
  let r := LimitedReader.Read rc l.f l.rd len
  let l₁ : blobReader σ := { l with f := r.1.1, rd := r.1.2 }
  if r.2.2 = some .EOF then ((blobReader.Close rc l₁).1, r.2) else (l₁, r.2)

/-- `LimitReader(f, n)`. -/
def LimitReader {σ : Type} (f : σ) (n : Int) : blobReader σ :=
  { f := f, rd := ⟨n⟩, closed := false, closeCalls := 0 }

/-- A call made on a `blobReader`. -/
inductive Call where
  | Read (len : Nat)
  | Close
  deriving DecidableEq, Repr

/-- What a call returned. -/
inductive Reply where
  | Read (n : Int) (err : Option StreamError)
  | Close (err : Option StreamError)
  deriving DecidableEq, Repr

/-- One call on the reader. -/
def blobReader.call {σ : Type} (rc : ReadCloser σ) (l : blobReader σ) :
    Call → blobReader σ × Reply
  | .Read len => ((blobReader.Read rc l len).1,
      .Read (blobReader.Read rc l len).2.1 (blobReader.Read rc l len).2.2)
  | .Close => ((blobReader.Close rc l).1, .Close (blobReader.Close rc l).2)

/-- A finite sequence of calls on the reader: the final state and the replies
in order. -/
def blobReader.run {σ : Type} (rc : ReadCloser σ) :
    blobReader σ → List Call → blobReader σ × List Reply
  | l, [] => (l, [])
  | l, c :: cs =>
    ((blobReader.run rc (blobReader.call rc l c).1 cs).1,
      (blobReader.call rc l c).2 :: (blobReader.run rc (blobReader.call rc l c).1 cs).2)

/-- The state of the reader `LimitReader(f, n)` after a sequence of calls. -/
def blobReader.after {σ : Type} (rc : ReadCloser σ) (f : σ) (n : Int) (calls : List Call) :
    blobReader σ :=
  (blobReader.run rc (LimitReader f n) calls).1

/-- The counter of `l.f.Close()` calls agrees with the flag: one call when
`closed` is set, none otherwise. -/
def blobReader.Consistent {σ : Type} (l : blobReader σ) : Prop :=
  l.closeCalls = if l.closed then 1 else 0

/-- A source of bytes whose state is the number of bytes left: `Read` hands out
up to `len(p)` of them with a `nil` error, and `0, io.EOF` when none is left;
`Close` succeeds. -/
def byteSource : ReadCloser Nat where
  Read := fun s k => if s = 0 then (0, 0, some .EOF) else (s - min k s, (min k s : Nat), none)
  Close := fun s => (s, none)

theorem sliceTo_of_le {s : GoString} {n : Nat} (h : n ≤ s.length) :
    sliceTo s n = some (s.take n) := by
  simp [sliceTo, h]

theorem sliceTo_of_lt {s : GoString} {n : Nat} (h : s.length < n) :
    sliceTo s n = none := by
  simp [sliceTo, Nat.not_le.mpr h]

theorem Find.scan_cons_of_not {pfx name : GoString} (found : GoString)
    (rest : List GoString) (hlen : pfx.length ≤ name.length) (h : ¬ pfx <+: name) :
    Find.scan pfx found (name :: rest) = Find.scan pfx found rest := by
  have h2 : ¬ pfx = name.take pfx.length := fun e => h (List.prefix_iff_eq_take.mpr e)
  simp [Find.scan, sliceTo_of_le hlen, h2]

theorem Find.scan_cons_first {pfx name : GoString} (rest : List GoString)
    (hlen : pfx.length ≤ name.length) (h : pfx <+: name) :
    Find.scan pfx [] (name :: rest) = Find.scan pfx name rest := by
  have h2 : pfx = name.take pfx.length := List.prefix_iff_eq_take.mp h
  simp [Find.scan, sliceTo_of_le hlen, ← h2]

theorem Find.scan_cons_second {pfx name found : GoString} (rest : List GoString)
    (hlen : pfx.length ≤ name.length) (h : pfx <+: name) (hf : found ≠ []) :
    Find.scan pfx found (name :: rest) = .ret [] (some .ErrMultipleIDMatches) := by
  have h2 : pfx = name.take pfx.length := List.prefix_iff_eq_take.mp h
  simp [Find.scan, sliceTo_of_le hlen, ← h2, hf]

/-- Once a match is held, the rest of the scan succeeds with it exactly when no
further entry matches. -/
theorem Find.scan_found {pfx found : GoString} (hf : found ≠ []) :
    ∀ (l : List GoString), (∀ name ∈ l, pfx.length ≤ name.length) →
      Find.scan pfx found l =
        if l.filter (fun name => decide (pfx <+: name)) = [] then .ret found none
        else .ret [] (some .ErrMultipleIDMatches)
  | [], _ => by simp [Find.scan, hf]
  | name :: rest, hlen => by
    have hn : pfx.length ≤ name.length := hlen name (List.mem_cons_self _ _)
    have hr : ∀ x ∈ rest, pfx.length ≤ x.length :=
      fun x hx => hlen x (List.mem_cons_of_mem _ hx)
    by_cases h : pfx <+: name
    · rw [Find.scan_cons_second rest hn h hf]
      simp [List.filter_cons, h]
    · rw [Find.scan_cons_of_not found rest hn h, Find.scan_found hf rest hr]
      simp [List.filter_cons, h]

/-- Closed form of the scan from the initial state `match == ""`. -/
theorem Find.scan_eq_verdict {pfx : GoString} (hne : pfx ≠ []) :
    ∀ (l : List GoString), (∀ name ∈ l, pfx.length ≤ name.length) →
      Find.scan pfx [] l = Find.verdict (l.filter (fun name => decide (pfx <+: name)))
  | [], _ => by simp [Find.scan, Find.verdict]
  | name :: rest, hlen => by
    have hn : pfx.length ≤ name.length := hlen name (List.mem_cons_self _ _)
    have hr : ∀ x ∈ rest, pfx.length ≤ x.length :=
      fun x hx => hlen x (List.mem_cons_of_mem _ hx)
    by_cases h : pfx <+: name
    · have hname : name ≠ [] := by
        rintro rfl
        exact hne (List.prefix_nil.mp h)
      rw [Find.scan_cons_first rest hn h, Find.scan_found hname rest hr]
      simp only [List.filter_cons, h, decide_True, if_true]
      cases hm : rest.filter (fun name => decide (pfx <+: name)) with
      | nil => simp [Find.verdict]
      | cons y ys => simp [Find.verdict]
    · rw [Find.scan_cons_of_not [] rest hn h, Find.scan_eq_verdict hne rest hr]
      simp [List.filter_cons, h]

theorem Find_eq_verdict {τ : Type} (be : Lister τ) (t : τ) (pfx : GoString)
    (hne : pfx ≠ []) (hlen : ∀ name ∈ be.List t, pfx.length ≤ name.length) :
    Find be t pfx =
      Find.verdict ((be.List t).filter (fun name => decide (pfx <+: name))) :=
  Find.scan_eq_verdict hne (be.List t) hlen

theorem Find.verdict_notFound_iff (m : List GoString) :
    Find.verdict m = .ret [] (some .ErrNoIDPrefixFound) ↔ m = [] := by
  match m with
  | [] => simp [Find.verdict]
  | [x] => simp [Find.verdict]
  | _ :: _ :: _ => simp [Find.verdict]

theorem Find.verdict_multiple_iff (m : List GoString) :
    Find.verdict m = .ret [] (some .ErrMultipleIDMatches) ↔ ∃ x y r, m = x :: y :: r := by
  match m with
  | [] => simp [Find.verdict]
  | [x] => simp [Find.verdict]
  | x :: y :: r => simp [Find.verdict]

theorem Find.verdict_perm {m₁ m₂ : List GoString} (h : m₁.Perm m₂) :
    Find.verdict m₁ = Find.verdict m₂ := by
  match m₁, m₂, h with
  | [], m₂, h => rw [List.nil_perm.mp h]
  | [x], m₂, h => rw [← List.singleton_perm.mp h]
  | x :: y :: r, [], h => exact absurd h.length_eq (by simp)
  | x :: y :: r, [z], h => exact absurd h.length_eq (by simp)
  | x :: y :: r, _ :: _ :: _, _ => rfl

theorem Find.verdict_multiple_iff_length (m : List GoString) :
    Find.verdict m = .ret [] (some .ErrMultipleIDMatches) ↔ 2 ≤ m.length := by
  match m with
  | [] => simp [Find.verdict]
  | [x] => simp [Find.verdict]
  | x :: y :: r => simp [Find.verdict]

/-! ## Claims on `Find` -/

/-- C1: for a non-empty prefix and a listing whose names all have at least
`len(prefix)` bytes, `Find` returns `"", ErrNoIDPrefixFound` if and only if no
name of the listing begins with the prefix; on the empty listing it returns
`"", ErrNoIDPrefixFound`. -/
theorem Find_notFound_iff {τ : Type} (be : Lister τ) (t : τ) (pfx : GoString)
    (hne : pfx ≠ []) (hlen : ∀ name ∈ be.List t, pfx.length ≤ name.length) :
    (Find be t pfx = .ret [] (some .ErrNoIDPrefixFound) ↔
        ∀ name ∈ be.List t, ¬ pfx <+: name) ∧
      (be.List t = [] → Find be t pfx = .ret [] (some .ErrNoIDPrefixFound)) := by
  have key : Find be t pfx = .ret [] (some .ErrNoIDPrefixFound) ↔
      ∀ name ∈ be.List t, ¬ pfx <+: name := by
    rw [Find_eq_verdict be t pfx hne hlen, Find.verdict_notFound_iff]
    simp [List.filter_eq_nil_iff]
  refine ⟨key, fun h => key.mpr ?_⟩
  simp [h]

theorem Find_notFound_iff_witness :
    pfxAbcd ≠ [] ∧
      (∀ name ∈ (constLister [nameEf0]).List (), pfxAbcd.length ≤ name.length) ∧
      ((Find (constLister [nameEf0]) () pfxAbcd = .ret [] (some .ErrNoIDPrefixFound) ↔
          ∀ name ∈ (constLister [nameEf0]).List (), ¬ pfxAbcd <+: name) ∧
        ((constLister [nameEf0]).List () = [] →
          Find (constLister [nameEf0]) () pfxAbcd = .ret [] (some .ErrNoIDPrefixFound))) :=
  ⟨by decide, by decide,
    Find_notFound_iff (constLister [nameEf0]) () pfxAbcd (by decide) (by decide)⟩

/-- C2: for a non-empty prefix and a listing whose names all have at least
`len(prefix)` bytes, if exactly one entry of the listing begins with the prefix
(the entry `name` between `before` and `after`, neither of which holds a
match), `Find` returns `name, nil`, wherever the entry stands. -/
theorem Find_unique_match {τ : Type} (be : Lister τ) (t : τ) (pfx : GoString)
    (hne : pfx ≠ []) (hlen : ∀ name ∈ be.List t, pfx.length ≤ name.length)
    (before after : List GoString) (name : GoString)
    (hsplit : be.List t = before ++ name :: after) (hname : pfx <+: name)
    (hbefore : ∀ x ∈ before, ¬ pfx <+: x) (hafter : ∀ x ∈ after, ¬ pfx <+: x) :
    Find be t pfx = .ret name none := by
  have hb : before.filter (fun x => decide (pfx <+: x)) = [] := by
    simpa [List.filter_eq_nil_iff] using hbefore
  have ha : after.filter (fun x => decide (pfx <+: x)) = [] := by
    simpa [List.filter_eq_nil_iff] using hafter
  rw [Find_eq_verdict be t pfx hne hlen, hsplit, List.filter_append, List.filter_cons, hb, ha]
  simp [hname, Find.verdict]

theorem Find_unique_match_witness :
    Find (constLister [nameEf0, nameAbcd1, nameEf0]) () pfxAbcd = .ret nameAbcd1 none :=
  Find_unique_match (constLister [nameEf0, nameAbcd1, nameEf0]) () pfxAbcd (by decide)
    (by decide) [nameEf0] [nameEf0] nameAbcd1 rfl (by decide) (by decide) (by decide)

/-- C3: for a non-empty prefix and a listing whose names all have at least
`len(prefix)` bytes, if the listing contains two distinct names that begin with
the prefix, `Find` returns `"", ErrMultipleIDMatches`. -/
theorem Find_two_distinct_matches {τ : Type} (be : Lister τ) (t : τ) (pfx : GoString)
    (hne : pfx ≠ []) (hlen : ∀ name ∈ be.List t, pfx.length ≤ name.length)
    (a b : GoString) (ha : a ∈ be.List t) (hb : b ∈ be.List t) (hab : a ≠ b)
    (hpa : pfx <+: a) (hpb : pfx <+: b) :
    Find be t pfx = .ret [] (some .ErrMultipleIDMatches) := by
  rw [Find_eq_verdict be t pfx hne hlen]
  have ha2 : a ∈ (be.List t).filter (fun x => decide (pfx <+: x)) := by
    simp [List.mem_filter, ha, hpa]
  have hb2 : b ∈ (be.List t).filter (fun x => decide (pfx <+: x)) := by
    simp [List.mem_filter, hb, hpb]
  generalize (be.List t).filter (fun x => decide (pfx <+: x)) = m at ha2 hb2
  match m, ha2, hb2 with
  | [x], ha2, hb2 =>
    exact absurd ((List.mem_singleton.mp ha2).trans (List.mem_singleton.mp hb2).symm) hab
  | _ :: _ :: _, _, _ => rfl

theorem Find_two_distinct_matches_witness :
    Find (constLister [nameAbcd1, nameAbcd5]) () pfxAbcd =
      .ret [] (some .ErrMultipleIDMatches) :=
  Find_two_distinct_matches (constLister [nameAbcd1, nameAbcd5]) () pfxAbcd (by decide)
    (by decide) nameAbcd1 nameAbcd5 (by decide) (by decide) (by decide) (by decide)
    (by decide)

/-- C4, as stated, fails: the listing that repeats the one name `abcd1111...`
twice makes `Find` return `"", ErrMultipleIDMatches` for the prefix `abcd`,
although it contains no two different names beginning with the prefix. -/
theorem Find_repeated_name_ambiguous :
    pfxAbcd ≠ [] ∧
      (∀ name ∈ (constLister [nameAbcd1, nameAbcd1]).List (),
        pfxAbcd.length ≤ name.length) ∧
      Find (constLister [nameAbcd1, nameAbcd1]) () pfxAbcd =
        .ret [] (some .ErrMultipleIDMatches) ∧
      ¬ ∃ a ∈ (constLister [nameAbcd1, nameAbcd1]).List (),
          ∃ b ∈ (constLister [nameAbcd1, nameAbcd1]).List (),
            a ≠ b ∧ pfxAbcd <+: a ∧ pfxAbcd <+: b := by
  refine ⟨by decide, by decide, by decide, ?_⟩
  rintro ⟨a, ha, b, hb, hab, -, -⟩
  simp only [constLister, List.mem_cons, List.mem_singleton, List.not_mem_nil,
    or_false, or_self] at ha hb
  exact hab (ha.trans hb.symm)

/-- C4, amended: for a non-empty prefix and a listing whose names all have at
least `len(prefix)` bytes, `Find` returns `"", ErrMultipleIDMatches` if and only
if two entries at different positions of the listing begin with the prefix,
whether or not the two entries are the same name. -/
theorem Find_multiple_iff_two_entries {τ : Type} (be : Lister τ) (t : τ) (pfx : GoString)
    (hne : pfx ≠ []) (hlen : ∀ name ∈ be.List t, pfx.length ≤ name.length) :
    Find be t pfx = .ret [] (some .ErrMultipleIDMatches) ↔
      ∃ l₁ a l₂ b l₃, be.List t = l₁ ++ a :: (l₂ ++ b :: l₃) ∧ pfx <+: a ∧ pfx <+: b := by
  rw [Find_eq_verdict be t pfx hne hlen]
  constructor
  · intro h
    obtain ⟨x, y, r, hm⟩ := (Find.verdict_multiple_iff _).mp h
    obtain ⟨l₁, rest, hl, -, hx, hrest⟩ := List.filter_eq_cons_iff.mp hm
    obtain ⟨l₂, l₃, hl2, -, hy, -⟩ := List.filter_eq_cons_iff.mp hrest
    refine ⟨l₁, x, l₂, y, l₃, ?_, of_decide_eq_true hx, of_decide_eq_true hy⟩
    rw [hl, hl2]
  · rintro ⟨l₁, a, l₂, b, l₃, hl, ha, hb⟩
    rw [Find.verdict_multiple_iff_length, hl]
    simp only [List.filter_append, List.filter_cons, ha, hb, decide_True, if_true,
      List.length_append, List.length_cons]
    omega

theorem Find_multiple_iff_two_entries_witness :
    pfxAbcd ≠ [] ∧
      (∀ name ∈ (constLister [nameAbcd1, nameEf0, nameAbcd1]).List (),
        pfxAbcd.length ≤ name.length) ∧
      (Find (constLister [nameAbcd1, nameEf0, nameAbcd1]) () pfxAbcd =
          .ret [] (some .ErrMultipleIDMatches) ↔
        ∃ l₁ a l₂ b l₃,
          (constLister [nameAbcd1, nameEf0, nameAbcd1]).List () =
            l₁ ++ a :: (l₂ ++ b :: l₃) ∧ pfxAbcd <+: a ∧ pfxAbcd <+: b) :=
  ⟨by decide, by decide,
    Find_multiple_iff_two_entries (constLister [nameAbcd1, nameEf0, nameAbcd1]) () pfxAbcd
      (by decide) (by decide)⟩

/-- C5: for a non-empty prefix and two listings that are permutations of each
other, all names having at least `len(prefix)` bytes, `Find` returns the same
result on both: the same name on success, the same error on failure. -/
theorem Find_perm {τ : Type} (be₁ be₂ : Lister τ) (t : τ) (pfx : GoString)
    (hne : pfx ≠ []) (hlen : ∀ name ∈ be₁.List t, pfx.length ≤ name.length)
    (hperm : (be₁.List t).Perm (be₂.List t)) :
    Find be₁ t pfx = Find be₂ t pfx := by
  have hlen₂ : ∀ name ∈ be₂.List t, pfx.length ≤ name.length :=
    fun name h => hlen name (hperm.mem_iff.mpr h)
  rw [Find_eq_verdict be₁ t pfx hne hlen, Find_eq_verdict be₂ t pfx hne hlen₂]
  exact Find.verdict_perm (hperm.filter _)

theorem Find_perm_witness :
    Find (constLister [nameAbcd1, nameEf0]) () pfxAbcd =
      Find (constLister [nameEf0, nameAbcd1]) () pfxAbcd :=
  Find_perm (constLister [nameAbcd1, nameEf0]) (constLister [nameEf0, nameAbcd1]) ()
    pfxAbcd (by decide) (by decide) (List.Perm.swap nameEf0 nameAbcd1 [])

/-- C6 fails on the code: with the two-byte name `ab` in the listing and the
prefix `abcd`, the slice `name[:len(prefix)]` is out of range and `Find` panics
instead of returning a name or an error. -/
theorem Find_short_name_panics :
    Find (constLister [[97, 98]]) () pfxAbcd = .panic := by
  decide

/-! ## Lemmas on `PrefixLength` -/

theorem chain_take_iff (l : Nat) (a : GoString) (rest : List GoString) :
    List.Chain (fun a b : GoString => a.take l ≠ b.take l) (a.take l) rest ↔
      List.Chain (fun a b : GoString => a.take l ≠ b.take l) a rest := by
  cases rest with
  | nil => simp
  | cons b r => simp [List.chain_cons, List.take_take]

/-- The inner loop started with a value of `last` that is its own truncation
reports whether the chain of truncations from `last` on has a collision. -/
theorem PrefixLength.inner_eq (l : Nat) :
    ∀ (list : List GoString) (last : GoString),
      (∀ name ∈ list, l ≤ name.length) → last.take l = last →
      PrefixLength.inner l last list =
        some (decide (¬ List.Chain (fun a b : GoString => a.take l ≠ b.take l) last list))
  | [], last, _, _ => by simp [PrefixLength.inner]
  | name :: rest, last, hlen, hlast => by
    have hn : l ≤ name.length := hlen name (List.mem_cons_self _ _)
    have hr : ∀ x ∈ rest, l ≤ x.length := fun x hx => hlen x (List.mem_cons_of_mem _ hx)
    have ih := PrefixLength.inner_eq l rest (name.take l) hr (by simp [List.take_take])
    by_cases h : last = name.take l
    · simp [PrefixLength.inner, sliceTo_of_le hn, List.chain_cons, hlast, h]
    · simp only [PrefixLength.inner, sliceTo_of_le hn, h, if_false, ih, List.chain_cons,
        hlast, chain_take_iff]
      simp [h]

/-- At a positive length, with every name long enough, the inner loop takes
`continue outer` exactly when two consecutive truncations are equal. -/
theorem PrefixLength.inner_nil_eq {l : Nat} (hl : 0 < l) (list : List GoString)
    (hlen : ∀ name ∈ list, l ≤ name.length) :
    PrefixLength.inner l [] list = some (decide (¬ NoAdjacentCollision l list)) := by
  rw [PrefixLength.inner_eq l list [] hlen (by simp)]
  cases list with
  | nil => simp [NoAdjacentCollision]
  | cons name rest =>
    have hn : l ≤ name.length := hlen name (List.mem_cons_self _ _)
    have hne : ¬ [] = name.take l := by
      intro e
      have := congrArg List.length e
      simp at this
      omega
    simp [NoAdjacentCollision, List.Chain', List.chain_cons, hne]

/-- The outer loop over `s, s + 1, ..., s + n - 1`: it returns the first of
these lengths without a collision of consecutive truncations, and `IDSize` when
there is none. -/
theorem PrefixLength.outer_range (IDSize : Nat) (list : List GoString) :
    ∀ (n s : Nat), 0 < s →
      (∀ l, s ≤ l → l < s + n → ∀ name ∈ list, l ≤ name.length) →
      ∃ r, PrefixLength.outer IDSize list (List.range' s n) = .ret r none ∧
        ((s ≤ r ∧ r < s + n ∧ NoAdjacentCollision r list ∧
            ∀ l, s ≤ l → l < r → ¬ NoAdjacentCollision l list) ∨
          (r = IDSize ∧ ∀ l, s ≤ l → l < s + n → ¬ NoAdjacentCollision l list))
  | 0, s, _, _ => by
    refine ⟨IDSize, by simp [PrefixLength.outer], Or.inr ⟨rfl, ?_⟩⟩
    intro l h1 h2
    omega
  | n + 1, s, hs, hlen => by
    have hin := PrefixLength.inner_nil_eq hs list (hlen s (Nat.le_refl _) (by omega))
    by_cases hc : NoAdjacentCollision s list
    · refine ⟨s, ?_, Or.inl ⟨Nat.le_refl _, by omega, hc, ?_⟩⟩
      · simp [List.range'_succ, PrefixLength.outer, hin, hc]
      · intro l h1 h2
        omega
    · obtain ⟨r, hr, hprop⟩ := PrefixLength.outer_range IDSize list n (s + 1) (by omega)
        (fun l h1 h2 => hlen l (by omega) (by omega))
      refine ⟨r, ?_, ?_⟩
      · simp [List.range'_succ, PrefixLength.outer, hin, hc, hr]
      · have hstep : ∀ l, s ≤ l → ¬ (s + 1 ≤ l) → ¬ NoAdjacentCollision l list := by
          intro l h1 h2
          have : l = s := by omega
          rw [this]
          exact hc
        rcases hprop with ⟨h1, h2, h3, h4⟩ | ⟨h1, h2⟩
        · refine Or.inl ⟨by omega, by omega, h3, ?_⟩
          intro l hl1 hl2
          by_cases hs1 : s + 1 ≤ l
          · exact h4 l hs1 hl2
          · exact hstep l hl1 hs1
        · refine Or.inr ⟨h1, ?_⟩
          intro l hl1 hl2
          by_cases hs1 : s + 1 ≤ l
          · exact h2 l hs1 (by omega)
          · exact hstep l hl1 hs1

/-- The result of `PrefixLength` on a listing whose names all have at least
`IDSize - 1` bytes. -/
theorem PrefixLength_spec {τ : Type} (IDSize : Nat) (be : Lister τ) (t : τ)
    (hlen : ∀ name ∈ be.List t, IDSize - 1 ≤ name.length) :
    ∃ r, PrefixLength IDSize be t = .ret r none ∧
      ((MinPrefixLength ≤ r ∧ r < IDSize ∧ NoAdjacentCollision r (be.List t) ∧
          ∀ l, MinPrefixLength ≤ l → l < r → ¬ NoAdjacentCollision l (be.List t)) ∨
        (r = IDSize ∧
          ∀ l, MinPrefixLength ≤ l → l < IDSize → ¬ NoAdjacentCollision l (be.List t))) := by
  obtain ⟨r, hr, hprop⟩ := PrefixLength.outer_range IDSize (be.List t)
    (IDSize - MinPrefixLength) MinPrefixLength (by decide)
    (fun l h1 h2 name hname => by
      have := hlen name hname
      omega)
  refine ⟨r, hr, ?_⟩
  rcases hprop with ⟨h1, h2, h3, h4⟩ | ⟨h1, h2⟩
  · exact Or.inl ⟨h1, by omega, h3, h4⟩
  · exact Or.inr ⟨h1, fun l hl1 hl2 => h2 l hl1 (by omega)⟩

/-- Two consecutive names with equal truncations are a collision. -/
theorem not_noAdjacentCollision_of_split {l : Nat} {list before after : List GoString}
    {a b : GoString} (hsplit : list = before ++ a :: b :: after)
    (hagree : a.take l = b.take l) : ¬ NoAdjacentCollision l list := by
  intro h
  have hinfix : [a, b] <:+: list := ⟨before, after, by simp [hsplit]⟩
  have hpair : List.Chain' (fun a b : GoString => a.take l ≠ b.take l) [a, b] :=
    List.Chain'.infix h hinfix
  exact List.chain'_pair.mp hpair hagree

/-! ## Claims on `PrefixLength` -/

/-- C7: on a listing whose names all have at least `IDSize - 1` bytes,
`PrefixLength` returns `r, nil` where `r` is the least length `l` with
`MinPrefixLength ≤ l < IDSize` at which no two consecutive names of the listing
have equal first-`l`-byte truncations, and `r = IDSize` when every such `l` has
a collision of consecutive names; so `8 ≤ r ≤ IDSize` (for `IDSize ≥ 8`). -/
theorem PrefixLength_least {τ : Type} (IDSize : Nat) (be : Lister τ) (t : τ)
    (hlen : ∀ name ∈ be.List t, IDSize - 1 ≤ name.length) :
    ∃ r, PrefixLength IDSize be t = .ret r none ∧
      ((MinPrefixLength ≤ r ∧ r < IDSize ∧ NoAdjacentCollision r (be.List t) ∧
          ∀ l, MinPrefixLength ≤ l → l < r → ¬ NoAdjacentCollision l (be.List t)) ∨
        (r = IDSize ∧
          ∀ l, MinPrefixLength ≤ l → l < IDSize → ¬ NoAdjacentCollision l (be.List t))) ∧
      (MinPrefixLength ≤ IDSize → 8 ≤ r ∧ r ≤ IDSize) := by
  obtain ⟨r, hr, hprop⟩ := PrefixLength_spec IDSize be t hlen
  refine ⟨r, hr, hprop, fun h8 => ?_⟩
  have hmin : MinPrefixLength = 8 := rfl
  rcases hprop with ⟨h1, h2, -, -⟩ | ⟨h1, -⟩ <;> omega

theorem PrefixLength_least_witness :
    (∀ name ∈ (constLister [nameA1, nameA2, nameB]).List (), hashSize - 1 ≤ name.length) ∧
      ∃ r, PrefixLength hashSize (constLister [nameA1, nameA2, nameB]) () = .ret r none ∧
        ((MinPrefixLength ≤ r ∧ r < hashSize ∧
            NoAdjacentCollision r ((constLister [nameA1, nameA2, nameB]).List ()) ∧
            ∀ l, MinPrefixLength ≤ l → l < r →
              ¬ NoAdjacentCollision l ((constLister [nameA1, nameA2, nameB]).List ())) ∨
          (r = hashSize ∧
            ∀ l, MinPrefixLength ≤ l → l < hashSize →
              ¬ NoAdjacentCollision l ((constLister [nameA1, nameA2, nameB]).List ()))) ∧
        (MinPrefixLength ≤ hashSize → 8 ≤ r ∧ r ≤ hashSize) :=
  ⟨by decide,
    PrefixLength_least hashSize (constLister [nameA1, nameA2, nameB]) () (by decide)⟩

/-- C8, as stated, fails: on the single-entry listing that holds the three-byte
name `abc`, the slice `name[:8]` is out of range and `PrefixLength` panics
instead of returning `8, nil`. -/
theorem PrefixLength_short_single_panics :
    PrefixLength hashSize (constLister [[97, 98, 99]]) () = .panic ∧
      PrefixLength hashSize (constLister [[97, 98, 99]]) () ≠ .ret MinPrefixLength none := by
  decide

/-- C8, amended: with `IDSize ≥ 8`, `PrefixLength` returns `8, nil` on the empty
listing, and on every single-entry listing whose name has at least 8 bytes. -/
theorem PrefixLength_empty_or_single {τ : Type} (IDSize : Nat) (be : Lister τ) (t : τ)
    (hid : MinPrefixLength ≤ IDSize) :
    (be.List t = [] → PrefixLength IDSize be t = .ret 8 none) ∧
      (∀ name, be.List t = [name] → MinPrefixLength ≤ name.length →
        PrefixLength IDSize be t = .ret 8 none) := by
  have hmin : MinPrefixLength = 8 := rfl
  rcases Nat.eq_or_lt_of_le hid with heq | hlt
  · constructor
    · intro _
      simp [PrefixLength, ← heq, PrefixLength.outer, hmin]
    · intro _ _ _
      simp [PrefixLength, ← heq, PrefixLength.outer, hmin]
  · obtain ⟨n, hn⟩ : ∃ n, IDSize - MinPrefixLength = n + 1 :=
      ⟨IDSize - MinPrefixLength - 1, by omega⟩
    constructor
    · intro h
      unfold PrefixLength
      rw [hn, List.range'_succ, h]
      simp [PrefixLength.outer, PrefixLength.inner, hmin]
    · intro name h hname
      have hin := PrefixLength.inner_nil_eq (l := MinPrefixLength) (by decide) [name]
        (by simpa using hname)
      have hc : NoAdjacentCollision MinPrefixLength [name] := by
        simp [NoAdjacentCollision]
      simp only [hc, not_true_eq_false, decide_False] at hin
      unfold PrefixLength
      rw [hn, List.range'_succ, h]
      simp only [PrefixLength.outer, hin]
      rw [hmin]

theorem PrefixLength_empty_or_single_witness :
    MinPrefixLength ≤ hashSize ∧
      ((constLister [nameB]).List () = [] →
        PrefixLength hashSize (constLister [nameB]) () = .ret 8 none) ∧
      (∀ name, (constLister [nameB]).List () = [name] → MinPrefixLength ≤ name.length →
        PrefixLength hashSize (constLister [nameB]) () = .ret 8 none) :=
  ⟨by decide, PrefixLength_empty_or_single hashSize (constLister [nameB]) () (by decide)⟩

/-- C9: on a listing whose names all have at least `IDSize - 1` bytes and in
which two consecutive names `a`, `b` agree on their first `k` bytes, with
`k < IDSize` (in particular for `8 ≤ k < IDSize`), `PrefixLength` returns
`r, nil` with `r > k`. -/
theorem PrefixLength_gt_of_adjacent_agree {τ : Type} (IDSize : Nat) (be : Lister τ) (t : τ)
    (hlen : ∀ name ∈ be.List t, IDSize - 1 ≤ name.length)
    (k : Nat) (hk : k < IDSize)
    (before after : List GoString) (a b : GoString)
    (hsplit : be.List t = before ++ a :: b :: after) (hagree : a.take k = b.take k) :
    ∃ r, PrefixLength IDSize be t = .ret r none ∧ k < r := by
  obtain ⟨r, hr, hprop⟩ := PrefixLength_spec IDSize be t hlen
  refine ⟨r, hr, ?_⟩
  rcases hprop with ⟨-, -, h3, -⟩ | ⟨h1, -⟩
  · by_contra hle
    have hrk : r ≤ k := Nat.le_of_not_lt hle
    have hagree2 : a.take r = b.take r := by
      have := congrArg (List.take r) hagree
      simpa [List.take_take, Nat.min_eq_left hrk] using this
    exact not_noAdjacentCollision_of_split hsplit hagree2 h3
  · omega

theorem PrefixLength_gt_of_adjacent_agree_witness :
    (∃ r, PrefixLength hashSize (constLister [nameA1, nameA2, nameB]) () = .ret r none ∧
        8 < r) ∧
      PrefixLength hashSize (constLister [nameA1, nameA2, nameB]) () = .ret 9 none :=
  ⟨PrefixLength_gt_of_adjacent_agree hashSize (constLister [nameA1, nameA2, nameB]) ()
      (by decide) 8 (by decide) [] [nameB] nameA1 nameA2 rfl (by decide),
    by decide⟩

/-- C10 fails on the code: on the listing `aaaaaaaa1111...`, `bbbbbbbb...`,
`aaaaaaaa2222...` of three distinct 64-byte names, `PrefixLength` returns
`8, nil`, and the first and the third name have the same first 8 bytes. -/
theorem PrefixLength_not_globally_unique :
    [nameA1, nameB, nameA2].Nodup ∧
      (∀ name ∈ [nameA1, nameB, nameA2], name.length = 64) ∧
      PrefixLength hashSize (constLister [nameA1, nameB, nameA2]) () = .ret 8 none ∧
      nameA1 ≠ nameA2 ∧ nameA1.take 8 = nameA2.take 8 := by
  decide

/-! ## Lemmas on the bounded stream -/

theorem blobReader.Close_of_closed {σ : Type} (rc : ReadCloser σ) (l : blobReader σ)
    (h : l.closed = true) : blobReader.Close rc l = (l, none) := by
  simp [blobReader.Close, h]

theorem blobReader.Close_closed {σ : Type} (rc : ReadCloser σ) (l : blobReader σ) :
    (blobReader.Close rc l).1.closed = true := by
  cases h : l.closed <;> simp [blobReader.Close, h]

theorem blobReader.Close_consistent {σ : Type} (rc : ReadCloser σ) (l : blobReader σ)
    (h : l.Consistent) : (blobReader.Close rc l).1.Consistent := by
  cases hc : l.closed
  · simp [blobReader.Close, blobReader.Consistent, hc] at h ⊢
    exact h
  · rw [blobReader.Close_of_closed rc l hc]
    exact h

/-- The reply of `Read` is the reply of the limited reader. -/
theorem blobReader.Read_reply {σ : Type} (rc : ReadCloser σ) (l : blobReader σ) (len : Nat) :
    (blobReader.Read rc l len).2 = (LimitedReader.Read rc l.f l.rd len).2 := by
  simp only [blobReader.Read]
  split <;> rfl

/-- On a released reader `Read` changes only the resource state and the counter
of the limited reader. -/
theorem blobReader.Read_state_of_closed {σ : Type} (rc : ReadCloser σ) (l : blobReader σ)
    (len : Nat) (h : l.closed = true) :
    (blobReader.Read rc l len).1 =
      { l with f := (LimitedReader.Read rc l.f l.rd len).1.1,
               rd := (LimitedReader.Read rc l.f l.rd len).1.2 } := by
  simp only [blobReader.Read]
  split
  · simp [blobReader.Close, h]
  · rfl

/-- On an open reader `Read` releases the resource exactly when the limited
reader reports `io.EOF`. -/
theorem blobReader.Read_state_of_open {σ : Type} (rc : ReadCloser σ) (l : blobReader σ)
    (len : Nat) (h : l.closed = false) :
    (blobReader.Read rc l len).1 =
      if (LimitedReader.Read rc l.f l.rd len).2.2 = some .EOF then
        { f := (rc.Close (LimitedReader.Read rc l.f l.rd len).1.1).1,
          rd := (LimitedReader.Read rc l.f l.rd len).1.2,
          closed := true, closeCalls := l.closeCalls + 1 }
      else
        { l with f := (LimitedReader.Read rc l.f l.rd len).1.1,
                 rd := (LimitedReader.Read rc l.f l.rd len).1.2 } := by
  simp only [blobReader.Read]
  split
  · simp [blobReader.Close, h]
  · rfl

theorem blobReader.Read_consistent {σ : Type} (rc : ReadCloser σ) (l : blobReader σ)
    (len : Nat) (h : l.Consistent) : (blobReader.Read rc l len).1.Consistent := by
  cases hc : l.closed
  · rw [blobReader.Read_state_of_open rc l len hc]
    split
    · simp [blobReader.Consistent, hc] at h ⊢
      exact h
    · simpa [blobReader.Consistent, hc] using h
  · rw [blobReader.Read_state_of_closed rc l len hc]
    simpa [blobReader.Consistent, hc] using h

theorem blobReader.Read_closed_of_closed {σ : Type} (rc : ReadCloser σ) (l : blobReader σ)
    (len : Nat) (h : l.closed = true) : (blobReader.Read rc l len).1.closed = true := by
  rw [blobReader.Read_state_of_closed rc l len h]
  exact h

theorem blobReader.Read_closed_of_EOF {σ : Type} (rc : ReadCloser σ) (l : blobReader σ)
    (len : Nat) (h : (blobReader.Read rc l len).2.2 = some .EOF) :
    (blobReader.Read rc l len).1.closed = true := by
  cases hc : l.closed
  · rw [blobReader.Read_reply] at h
    rw [blobReader.Read_state_of_open rc l len hc, if_pos h]
  · exact blobReader.Read_closed_of_closed rc l len hc

/-- One call keeps the counter consistent and a set flag set; a `Close`, and a
`Read` that reports `io.EOF`, leave the flag set. -/
theorem blobReader.call_facts {σ : Type} (rc : ReadCloser σ) (l : blobReader σ) (c : Call)
    (h : l.Consistent) :
    (blobReader.call rc l c).1.Consistent ∧
      (l.closed = true → (blobReader.call rc l c).1.closed = true) ∧
      ((∃ e, (blobReader.call rc l c).2 = .Close e) →
        (blobReader.call rc l c).1.closed = true) ∧
      ((∃ n, (blobReader.call rc l c).2 = .Read n (some .EOF)) →
        (blobReader.call rc l c).1.closed = true) := by
  cases c with
  | Read len =>
    refine ⟨blobReader.Read_consistent rc l len h,
      blobReader.Read_closed_of_closed rc l len, ?_, ?_⟩
    · rintro ⟨e, he⟩
      simp [blobReader.call] at he
    · rintro ⟨n, hn⟩
      simp only [blobReader.call, Reply.Read.injEq] at hn
      exact blobReader.Read_closed_of_EOF rc l len hn.2
  | Close =>
    refine ⟨blobReader.Close_consistent rc l h, fun _ => blobReader.Close_closed rc l,
      fun _ => blobReader.Close_closed rc l, fun _ => blobReader.Close_closed rc l⟩

/-- A sequence of calls keeps the counter consistent and a set flag set; after
it the flag is set if any call was a `Close` or a `Read` that reported
`io.EOF`. -/
theorem blobReader.run_facts {σ : Type} (rc : ReadCloser σ) :
    ∀ (calls : List Call) (l : blobReader σ), l.Consistent →
      (blobReader.run rc l calls).1.Consistent ∧
        (l.closed = true → (blobReader.run rc l calls).1.closed = true) ∧
        ((∃ e, Reply.Close e ∈ (blobReader.run rc l calls).2) →
          (blobReader.run rc l calls).1.closed = true) ∧
        ((∃ n, Reply.Read n (some .EOF) ∈ (blobReader.run rc l calls).2) →
          (blobReader.run rc l calls).1.closed = true)
  | [], l, h => by simp [blobReader.run, h]
  | c :: cs, l, h => by
    obtain ⟨h1, h2, h3, h4⟩ := blobReader.call_facts rc l c h
    obtain ⟨i1, i2, i3, i4⟩ := blobReader.run_facts rc cs (blobReader.call rc l c).1 h1
    refine ⟨i1, fun hc => i2 (h2 hc), ?_, ?_⟩
    · rintro ⟨e, he⟩
      simp only [blobReader.run, List.mem_cons] at he
      rcases he with he | he
      · exact i2 (h3 ⟨e, he.symm⟩)
      · exact i3 ⟨e, he⟩
    · rintro ⟨n, hn⟩
      simp only [blobReader.run, List.mem_cons] at hn
      rcases hn with hn | hn
      · exact i2 (h4 ⟨n, hn.symm⟩)
      · exact i4 ⟨n, hn⟩

theorem LimitReader_consistent {σ : Type} (f : σ) (n : Int) :
    (LimitReader f n).Consistent := by
  simp [LimitReader, blobReader.Consistent]

/-- A consistent reader had at most one `l.f.Close()` call. -/
theorem blobReader.Consistent.closeCalls_le {σ : Type} {l : blobReader σ}
    (h : l.Consistent) : l.closeCalls ≤ 1 ∧ (l.closed = true ↔ l.closeCalls = 1) := by
  cases hc : l.closed <;> simp [blobReader.Consistent, hc] at h <;> simp [h]

/-- Calls on a released reader never touch the counter of `l.f.Close()` calls. -/
theorem blobReader.run_closeCalls_of_closed {σ : Type} (rc : ReadCloser σ)
    (calls : List Call) (l : blobReader σ) (h : l.Consistent) (hc : l.closed = true) :
    (blobReader.run rc l calls).1.closeCalls = l.closeCalls := by
  obtain ⟨i1, i2, -, -⟩ := blobReader.run_facts rc calls l h
  have h1 := (blobReader.Consistent.closeCalls_le i1).2.mp (i2 hc)
  have h2 := (blobReader.Consistent.closeCalls_le h).2.mp hc
  omega

theorem blobReader.after_consistent {σ : Type} (rc : ReadCloser σ) (f : σ) (n : Int)
    (calls : List Call) : (blobReader.after rc f n calls).Consistent :=
  (blobReader.run_facts rc calls (LimitReader f n) (LimitReader_consistent f n)).1

/-- C11: for the reader `LimitReader(f, n)` and every finite sequence of `Read`
and `Close` calls on it, `l.f.Close()` was called at most once, and exactly once
when the flag `closed` is set; every `Close` leaves the flag set, and the flag
is set after any calls among which is a `Close` or a `Read` that returned
`io.EOF`; once the flag is set, whatever calls follow, it stays set, the number
of `l.f.Close()` calls stays 1, and a `Close` returns `nil` and changes
nothing. -/
theorem blobReader_close_once {σ : Type} (rc : ReadCloser σ) (f : σ) (n : Int)
    (calls₁ calls₂ : List Call) :
    (blobReader.after rc f n calls₁).closeCalls ≤ 1 ∧
      ((blobReader.after rc f n calls₁).closed = true ↔
        (blobReader.after rc f n calls₁).closeCalls = 1) ∧
      (blobReader.Close rc (blobReader.after rc f n calls₁)).1.closed = true ∧
      (((∃ e, Reply.Close e ∈ (blobReader.run rc (LimitReader f n) calls₁).2) ∨
          (∃ k, Reply.Read k (some .EOF) ∈ (blobReader.run rc (LimitReader f n) calls₁).2)) →
        (blobReader.after rc f n calls₁).closed = true) ∧
      ((blobReader.after rc f n calls₁).closed = true →
        (blobReader.run rc (blobReader.after rc f n calls₁) calls₂).1.closed = true ∧
        (blobReader.run rc (blobReader.after rc f n calls₁) calls₂).1.closeCalls = 1 ∧
        blobReader.Close rc (blobReader.run rc (blobReader.after rc f n calls₁) calls₂).1 =
          ((blobReader.run rc (blobReader.after rc f n calls₁) calls₂).1, none)) := by
  have hc := blobReader.after_consistent rc f n calls₁
  have hfacts := blobReader.run_facts rc calls₁ (LimitReader f n) (LimitReader_consistent f n)
  refine ⟨(blobReader.Consistent.closeCalls_le hc).1, (blobReader.Consistent.closeCalls_le hc).2,
    blobReader.Close_closed rc _, fun h => h.elim hfacts.2.2.1 hfacts.2.2.2,
    fun hclosed => ?_⟩
  have hstay := (blobReader.run_facts rc calls₂ _ hc).2.1 hclosed
  refine ⟨hstay, ?_, blobReader.Close_of_closed rc _ hstay⟩
  rw [blobReader.run_closeCalls_of_closed rc calls₂ _ hc hclosed]
  exact (blobReader.Consistent.closeCalls_le hc).2.mp hclosed

theorem blobReader_close_once_witness :
    (blobReader.after byteSource 10 10 [.Read 16, .Read 16]).closed = true ∧
      (blobReader.run byteSource (blobReader.after byteSource 10 10 [.Read 16, .Read 16])
        [.Read 4, .Close]).1.closeCalls = 1 :=
  ⟨by decide,
    ((blobReader_close_once byteSource 10 10 [.Read 16, .Read 16] [.Read 4, .Close]).2.2.2.2
      (by decide)).2.1⟩

/-- C12: when a `Read` on the open reader reached from `LimitReader(f, n)` by any
calls returns `io.EOF`, then before it returns `l.f.Close()` has been called for
the first and only time on the resource as the limited reader left it, the flag
is set, `Read` returns the count and error of the limited reader unchanged, and
a following `Close` returns `nil` and changes nothing. Hence after reading in
any chunk sizes until some `Read` returns `io.EOF`, the resource has been
released exactly once and a following `Close` is a no-op. -/
theorem blobReader_release_on_EOF {σ : Type} (rc : ReadCloser σ) (f : σ) (n : Int) :
    (∀ (calls : List Call) (len : Nat),
      (blobReader.after rc f n calls).closed = false →
      (blobReader.Read rc (blobReader.after rc f n calls) len).2.2 = some .EOF →
        (blobReader.after rc f n calls).closeCalls = 0 ∧
        (blobReader.Read rc (blobReader.after rc f n calls) len).1.closed = true ∧
        (blobReader.Read rc (blobReader.after rc f n calls) len).1.closeCalls = 1 ∧
        (blobReader.Read rc (blobReader.after rc f n calls) len).1.f =
          (rc.Close (LimitedReader.Read rc (blobReader.after rc f n calls).f
            (blobReader.after rc f n calls).rd len).1.1).1 ∧
        (blobReader.Read rc (blobReader.after rc f n calls) len).2 =
          (LimitedReader.Read rc (blobReader.after rc f n calls).f
            (blobReader.after rc f n calls).rd len).2 ∧
        blobReader.Close rc (blobReader.Read rc (blobReader.after rc f n calls) len).1 =
          ((blobReader.Read rc (blobReader.after rc f n calls) len).1, none)) ∧
      (∀ (lens : List Nat),
        (∃ k, Reply.Read k (some .EOF) ∈
          (blobReader.run rc (LimitReader f n) (lens.map Call.Read)).2) →
        (blobReader.after rc f n (lens.map Call.Read)).closed = true ∧
        (blobReader.after rc f n (lens.map Call.Read)).closeCalls = 1 ∧
        blobReader.Close rc (blobReader.after rc f n (lens.map Call.Read)) =
          (blobReader.after rc f n (lens.map Call.Read), none)) := by
  constructor
  · intro calls len hopen heof
    have hc := blobReader.after_consistent rc f n calls
    have h0 : (blobReader.after rc f n calls).closeCalls = 0 := by
      simpa [blobReader.Consistent, hopen] using hc
    have heof2 := heof
    rw [blobReader.Read_reply] at heof2
    have hstate := blobReader.Read_state_of_open rc _ len hopen
    rw [if_pos heof2] at hstate
    refine ⟨h0, ?_, ?_, ?_, blobReader.Read_reply rc _ len, ?_⟩
    · rw [hstate]
    · rw [hstate]
      simp [h0]
    · rw [hstate]
    · exact blobReader.Close_of_closed rc _ (by rw [hstate])
  · intro lens hex
    have hfacts := blobReader.run_facts rc (lens.map Call.Read) (LimitReader f n)
      (LimitReader_consistent f n)
    have hclosed : (blobReader.after rc f n (lens.map Call.Read)).closed = true :=
      hfacts.2.2.2 hex
    exact ⟨hclosed, (blobReader.Consistent.closeCalls_le hfacts.1).2.mp hclosed,
      blobReader.Close_of_closed rc _ hclosed⟩

theorem blobReader_release_on_EOF_witness :
    ((blobReader.after byteSource 10 10 [.Read 4, .Read 4, .Read 4]).closed = false ∧
      (blobReader.Read byteSource
        (blobReader.after byteSource 10 10 [.Read 4, .Read 4, .Read 4]) 4).2 =
          (0, some .EOF) ∧
      (blobReader.Read byteSource
        (blobReader.after byteSource 10 10 [.Read 4, .Read 4, .Read 4]) 4).1.closeCalls = 1) ∧
      ((blobReader.run byteSource (LimitReader 10 10) ([4, 4, 4, 4].map Call.Read)).2 =
          [.Read 4 none, .Read 4 none, .Read 2 none, .Read 0 (some .EOF)] ∧
        (blobReader.after byteSource 10 10 ([4, 4, 4, 4].map Call.Read)).closeCalls = 1 ∧
        blobReader.Close byteSource
            (blobReader.after byteSource 10 10 ([4, 4, 4, 4].map Call.Read)) =
          (blobReader.after byteSource 10 10 ([4, 4, 4, 4].map Call.Read), none)) :=
  ⟨⟨by decide, by decide,
      ((blobReader_release_on_EOF byteSource 10 10).1 [.Read 4, .Read 4, .Read 4] 4
        (by decide) (by decide)).2.2.1⟩,
    by decide,
    ((blobReader_release_on_EOF byteSource 10 10).2 [4, 4, 4, 4] ⟨0, by decide⟩).2⟩

/-- C13, as stated, fails: `Read` never tests the flag `closed`. On a 10-byte
source with limit 10, after two reads of 16 bytes the resource is released, and
the third `Read` returns `0, io.EOF`; after a `Close` as the first call, a `Read`
of 4 bytes is passed on to the source and returns `4, nil`. -/
theorem blobReader_read_after_release :
    ((blobReader.after byteSource 10 10 [.Read 16, .Read 16]).closed = true ∧
      (blobReader.Read byteSource
        (blobReader.after byteSource 10 10 [.Read 16, .Read 16]) 16).2 = (0, some .EOF)) ∧
      ((blobReader.after byteSource 10 10 [.Close]).closed = true ∧
        (blobReader.Read byteSource (blobReader.after byteSource 10 10 [.Close]) 4).2 =
          (4, none)) := by
  decide

/-- C13, amended: on a reader whose resource has been released, `Read` returns
what the limited reader returns: `0, io.EOF`, with no change of state, when the
limit is used up, and otherwise the result of the underlying `Read` for the
length the limited reader asks for; the flag stays set and `l.f.Close()` is not
called again. -/
theorem blobReader_read_released {σ : Type} (rc : ReadCloser σ) (l : blobReader σ)
    (len : Nat) (hclosed : l.closed = true) :
    (blobReader.Read rc l len).2 = (LimitedReader.Read rc l.f l.rd len).2 ∧
      (blobReader.Read rc l len).1.closed = true ∧
      (blobReader.Read rc l len).1.closeCalls = l.closeCalls ∧
      (l.rd.N ≤ 0 → blobReader.Read rc l len = (l, (0, some .EOF))) ∧
      (∀ k, l.rd.request len = some k →
        (blobReader.Read rc l len).2 = (rc.Read l.f k).2) := by
  have hstate := blobReader.Read_state_of_closed rc l len hclosed
  have hreply := blobReader.Read_reply rc l len
  refine ⟨hreply, blobReader.Read_closed_of_closed rc l len hclosed, ?_, ?_, ?_⟩
  · rw [hstate]
  · intro hN
    have hreq : l.rd.request len = none := by simp [LimitedReader.request, hN]
    have hlim : LimitedReader.Read rc l.f l.rd len = ((l.f, l.rd), (0, some .EOF)) := by
      simp [LimitedReader.Read, hreq]
    apply Prod.ext
    · rw [hstate, hlim]
    · rw [hreply, hlim]
  · intro k hk
    rw [hreply]
    simp [LimitedReader.Read, hk]

theorem blobReader_read_released_witness :
    (blobReader.after byteSource 10 10 [.Read 16, .Read 16]).closed = true ∧
      (blobReader.after byteSource 10 10 [.Read 16, .Read 16]).rd.N ≤ 0 ∧
      blobReader.Read byteSource (blobReader.after byteSource 10 10 [.Read 16, .Read 16]) 16 =
        (blobReader.after byteSource 10 10 [.Read 16, .Read 16], (0, some .EOF)) :=
  ⟨by decide, by decide,
    (blobReader_read_released byteSource
      (blobReader.after byteSource 10 10 [.Read 16, .Read 16]) 16 (by decide)).2.2.2.1
      (by decide)⟩

/-- Every error return of the scan of `Find` carries the empty string. -/
theorem Find.scan_error_name (pfx : GoString) :
    ∀ (l : List GoString) (found v : GoString) (e : Error),
      Find.scan pfx found l = .ret v (some e) → v = []
  | [], found, v, e, h => by
    unfold Find.scan at h
    split at h
    · simp at h
    · simp only [Outcome.ret.injEq] at h
      exact h.1.symm
  | name :: rest, found, v, e, h => by
    unfold Find.scan at h
    split at h
    · simp at h
    · split at h
      · split at h
        · exact Find.scan_error_name pfx rest name v e h
        · simp only [Outcome.ret.injEq] at h
          exact h.1.symm
      · exact Find.scan_error_name pfx rest found v e h

/-- C16: for every lister and every string `s`, `FindSnapshot(be, s)` returns
the same name and the same error as `Find(be, Snapshot, s)` (and panics when it
does), and the name is the empty string whenever an error is returned. -/
theorem FindSnapshot_eq_Find {τ : Type} (Snapshot : τ) (be : Lister τ) (s : GoString) :
    FindSnapshot Snapshot be s = Find be Snapshot s ∧
      ∀ name err, FindSnapshot Snapshot be s = .ret name (some err) → name = [] := by
  have key : FindSnapshot Snapshot be s = Find be Snapshot s := by
    unfold FindSnapshot
    cases h : Find be Snapshot s with
    | panic => rfl
    | ret v err =>
      cases err with
      | none => rfl
      | some e =>
        have hv : v = [] := Find.scan_error_name s (be.List Snapshot) [] v e h
        simp [hv]
  refine ⟨key, fun name err h => ?_⟩
  rw [key] at h
  exact Find.scan_error_name s (be.List Snapshot) [] name err h

/-! ## Order of the listing and `PrefixLength` -/

/-- C18: there are a listing of pairwise distinct names and a permutation of it
on which `PrefixLength` returns different lengths: the names `aaaaaaaa1111...`,
`aaaaaaaa2222...`, `bbbbbbbb...` give 9 in this order, and 8 when the third name
stands between the first two. -/
theorem PrefixLength_order_sensitive :
    [nameA1, nameA2, nameB].Nodup ∧
      List.Perm [nameA1, nameA2, nameB] [nameA1, nameB, nameA2] ∧
      PrefixLength hashSize (constLister [nameA1, nameA2, nameB]) () = .ret 9 none ∧
      PrefixLength hashSize (constLister [nameA1, nameB, nameA2]) () = .ret 8 none ∧
      PrefixLength hashSize (constLister [nameA1, nameA2, nameB]) () ≠
        PrefixLength hashSize (constLister [nameA1, nameB, nameA2]) () :=
  ⟨by decide, List.Perm.cons nameA1 (List.Perm.swap nameB nameA2 []), by decide, by decide,
    by decide⟩

/-- The first `l` bytes of two names that are long enough agree exactly when
their longest common prefix has at least `l` bytes. -/
theorem take_eq_iff_le_lcpLength :
    ∀ (l : Nat) (a b : GoString), l ≤ a.length → l ≤ b.length →
      (a.take l = b.take l ↔ l ≤ lcpLength a b)
  | 0, a, b, _, _ => by simp
  | l + 1, [], _, ha, _ => by simp at ha
  | l + 1, _ :: _, [], _, hb => by simp at hb
  | l + 1, x :: xs, y :: ys, ha, hb => by
    have ih := take_eq_iff_le_lcpLength l xs ys (by simpa using ha) (by simpa using hb)
    by_cases hxy : x = y
    · simp [lcpLength, hxy, ih]
    · simp [lcpLength, hxy]

/-- At a positive length, with every name long enough, two consecutive names
collide exactly when the length is at most `maxAdjacentLcp`. -/
theorem not_noAdjacentCollision_iff {l : Nat} (hl : 0 < l) :
    ∀ (list : List GoString), (∀ name ∈ list, l ≤ name.length) →
      (¬ NoAdjacentCollision l list ↔ l ≤ maxAdjacentLcp list)
  | [], _ => by
    simp [NoAdjacentCollision, maxAdjacentLcp]
    omega
  | [a], _ => by
    simp [NoAdjacentCollision, maxAdjacentLcp]
    omega
  | a :: b :: rest, hlen => by
    have ha : l ≤ a.length := hlen a (by simp)
    have hb : l ≤ b.length := hlen b (by simp)
    have ih := not_noAdjacentCollision_iff hl (b :: rest)
      (fun name h => hlen name (List.mem_cons_of_mem _ h))
    have hab := take_eq_iff_le_lcpLength l a b ha hb
    unfold NoAdjacentCollision at ih ⊢
    rw [List.chain'_cons, maxAdjacentLcp, not_and_or, ih, not_not, hab]
    omega

/-- C19: on a listing whose names all have at least `IDSize - 1` bytes,
`PrefixLength` returns `min(IDSize, max(8, M + 1))`, `M` being the maximum over
the pairs of consecutive names of the length of their longest common prefix
(`0` for fewer than two names); and the rejected lengths of `[8, IDSize)` form
an initial segment: below a rejected length every length from 8 on is
rejected. -/
theorem PrefixLength_closed_form {τ : Type} (IDSize : Nat) (be : Lister τ) (t : τ)
    (hlen : ∀ name ∈ be.List t, IDSize - 1 ≤ name.length) :
    PrefixLength IDSize be t =
        .ret (min IDSize (max 8 (maxAdjacentLcp (be.List t) + 1))) none ∧
      ∀ l l', MinPrefixLength ≤ l' → l' ≤ l → l < IDSize →
        ¬ NoAdjacentCollision l (be.List t) → ¬ NoAdjacentCollision l' (be.List t) := by
  have hmin : MinPrefixLength = 8 := rfl
  have hiff : ∀ l, MinPrefixLength ≤ l → l < IDSize →
      (¬ NoAdjacentCollision l (be.List t) ↔ l ≤ maxAdjacentLcp (be.List t)) := by
    intro l h1 h2
    refine not_noAdjacentCollision_iff (by omega) (be.List t) (fun name hname => ?_)
    have := hlen name hname
    omega
  constructor
  · obtain ⟨r, hr, hprop⟩ := PrefixLength_spec IDSize be t hlen
    rw [hr]
    congr 1
    rcases hprop with ⟨h1, h2, h3, h4⟩ | ⟨h1, h2⟩
    · have hM : ¬ r ≤ maxAdjacentLcp (be.List t) := fun h => (hiff r h1 h2).mpr h h3
      by_cases h8 : r = 8
      · omega
      · have := (hiff (r - 1) (by omega) (by omega)).mp (h4 (r - 1) (by omega) (by omega))
        omega
    · by_cases h8 : IDSize ≤ 8
      · omega
      · have := (hiff (IDSize - 1) (by omega) (by omega)).mp
          (h2 (IDSize - 1) (by omega) (by omega))
        omega
  · intro l l' h1 h2 h3 hcol
    have := (hiff l (by omega) h3).mp hcol
    exact (hiff l' h1 (by omega)).mpr (by omega)

theorem PrefixLength_closed_form_witness :
    (∀ name ∈ (constLister [nameA1, nameA2, nameB]).List (), hashSize - 1 ≤ name.length) ∧
      maxAdjacentLcp ((constLister [nameA1, nameA2, nameB]).List ()) = 8 ∧
      PrefixLength hashSize (constLister [nameA1, nameA2, nameB]) () =
        .ret (min hashSize
          (max 8 (maxAdjacentLcp ((constLister [nameA1, nameA2, nameB]).List ()) + 1))) none :=
  ⟨by decide, by decide,
    (PrefixLength_closed_form hashSize (constLister [nameA1, nameA2, nameB]) ()
      (by decide)).1⟩

/-! ## Sorted listings -/

theorem stringLE_nil_right {b : GoString} (h : stringLE b [] = true) : b = [] := by
  cases b with
  | nil => rfl
  | cons y ys => simp [stringLE] at h

theorem stringLE_cons_cons (x y : Fin 256) (xs ys : GoString) :
    stringLE (x :: xs) (y :: ys) = true ↔ x < y ∨ (x = y ∧ stringLE xs ys = true) := by
  simp [stringLE]

theorem stringLE_trans :
    ∀ (a b c : GoString), stringLE a b = true → stringLE b c = true → stringLE a c = true
  | [], _, _, _, _ => by simp [stringLE]
  | x :: xs, [], _, hab, _ => by simp [stringLE] at hab
  | x :: xs, y :: ys, [], _, hbc => by simp [stringLE] at hbc
  | x :: xs, y :: ys, z :: zs, hab, hbc => by
    rw [stringLE_cons_cons] at hab hbc ⊢
    rcases hab with hxy | ⟨hxy, hxs⟩
    · rcases hbc with hyz | ⟨hyz, -⟩
      · exact Or.inl (lt_trans hxy hyz)
      · exact Or.inl (hyz ▸ hxy)
    · rcases hbc with hyz | ⟨hyz, hys⟩
      · exact Or.inl (hxy ▸ hyz)
      · exact Or.inr ⟨hxy.trans hyz, stringLE_trans xs ys zs hxs hys⟩

/-- A name between two names with the same first `l` bytes has these first `l`
bytes too. -/
theorem take_eq_of_stringLE_between :
    ∀ (l : Nat) (a b c : GoString), stringLE a b = true → stringLE b c = true →
      a.take l = c.take l → b.take l = a.take l
  | 0, _, _, _, _, _, _ => by simp
  | l + 1, [], b, c, _, hbc, hac => by
    have hc : c = [] := by
      cases c with
      | nil => rfl
      | cons z zs => simp at hac
    rw [hc] at hbc
    rw [stringLE_nil_right hbc]
  | l + 1, x :: xs, [], _, hab, _, _ => by simp [stringLE] at hab
  | l + 1, x :: xs, y :: ys, [], _, hbc, _ => by simp [stringLE] at hbc
  | l + 1, x :: xs, y :: ys, z :: zs, hab, hbc, hac => by
    rw [stringLE_cons_cons] at hab hbc
    simp only [List.take_succ_cons, List.cons.injEq] at hac ⊢
    obtain ⟨hxz, htake⟩ := hac
    subst hxz
    rcases hab with hxy | ⟨hxy, hxs⟩
    · rcases hbc with hyx | ⟨hyx, -⟩
      · exact absurd (lt_trans hxy hyx) (lt_irrefl _)
      · exact absurd (hyx ▸ hxy) (lt_irrefl _)
    · rcases hbc with hyx | ⟨-, hys⟩
      · exact absurd (hxy ▸ hyx) (lt_irrefl _)
      · exact ⟨hxy.symm, take_eq_of_stringLE_between l xs ys zs hxs hys htake⟩

/-- In an ascending listing the first name is `<=` every later one. -/
theorem Ascending.head_le :
    ∀ (rest : List GoString) (a : GoString), Ascending (a :: rest) →
      ∀ c ∈ rest, stringLE a c = true
  | [], _, _, c, hc => by simp at hc
  | b :: rest, a, h, c, hc => by
    unfold Ascending at h
    rw [List.chain'_cons] at h
    rcases List.mem_cons.mp hc with rfl | hmem
    · exact h.1
    · exact stringLE_trans a b c h.1 (Ascending.head_le rest b h.2 c hmem)

/-- In an ascending listing without a collision of consecutive truncations, no
two truncations collide. -/
theorem Ascending.pairwise_of_noAdjacentCollision (l : Nat) :
    ∀ (list : List GoString), Ascending list → NoAdjacentCollision l list →
      List.Pairwise (fun a b : GoString => a.take l ≠ b.take l) list
  | [], _, _ => List.Pairwise.nil
  | [a], _, _ => by simp
  | a :: b :: rest, hasc, hno => by
    have hasc2 : Ascending (b :: rest) := by
      unfold Ascending at hasc ⊢
      exact (List.chain'_cons.mp hasc).2
    have hab : stringLE a b = true := by
      unfold Ascending at hasc
      exact (List.chain'_cons.mp hasc).1
    unfold NoAdjacentCollision at hno
    rw [List.chain'_cons] at hno
    have ih := Ascending.pairwise_of_noAdjacentCollision l (b :: rest) hasc2 hno.2
    refine List.Pairwise.cons (fun c hc heq => ?_) ih
    rcases List.mem_cons.mp hc with rfl | hmem
    · exact hno.1 heq
    · have hbc := Ascending.head_le rest b hasc2 c hmem
      exact hno.1 (take_eq_of_stringLE_between l a b c hab hbc heq).symm

/-- C20: on a listing in ascending lexicographic order whose names all have at
least `IDSize - 1` bytes, if `PrefixLength` returns `r, nil` with `r < IDSize`,
the first-`r`-byte truncations of the names at any two different positions of
the listing are different. -/
theorem PrefixLength_sorted_unique {τ : Type} (IDSize : Nat) (be : Lister τ) (t : τ)
    (hlen : ∀ name ∈ be.List t, IDSize - 1 ≤ name.length)
    (hsorted : Ascending (be.List t)) (r : Nat)
    (hr : PrefixLength IDSize be t = .ret r none) (hlt : r < IDSize) :
    List.Pairwise (fun a b : GoString => a.take r ≠ b.take r) (be.List t) := by
  obtain ⟨r', hr', hprop⟩ := PrefixLength_spec IDSize be t hlen
  rw [hr] at hr'
  simp only [Outcome.ret.injEq, and_true] at hr'
  subst hr'
  rcases hprop with ⟨-, -, h3, -⟩ | ⟨h1, -⟩
  · exact Ascending.pairwise_of_noAdjacentCollision r (be.List t) hsorted h3
  · omega

theorem PrefixLength_sorted_unique_witness :
    Ascending ((constLister [nameA1, nameA2, nameB]).List ()) ∧
      PrefixLength hashSize (constLister [nameA1, nameA2, nameB]) () = .ret 9 none ∧
      List.Pairwise (fun a b : GoString => a.take 9 ≠ b.take 9)
        ((constLister [nameA1, nameA2, nameB]).List ()) :=
  have hasc : Ascending ((constLister [nameA1, nameA2, nameB]).List ()) :=
    List.Chain'.cons (by decide) (List.Chain'.cons (by decide) (List.chain'_singleton _))
  ⟨hasc, by decide,
    PrefixLength_sorted_unique hashSize (constLister [nameA1, nameA2, nameB]) () (by decide)
      hasc 9 (by decide) (by decide)⟩

end Backend
